import Mathlib

/-!
Verification development for `evaluate_query_disambiguation.py`, the
evaluation harness for automatic image query disambiguation.

Modelling conventions:
* Image IDs are natural numbers.
* Python `set`s of IDs become `Finset ℕ`; ordered sequences become `List ℕ`.
* Python floats are modelled exactly over `ℚ` (and `ℝ` where a square root
  appears); the source only forms ratios of small integers and their means.
* A Python runtime error (`ZeroDivisionError`, `KeyError`) is modelled by
  `none` / an error component: a function that can raise returns `Option`,
  and the main-loop model returns the error alongside the trace of the
  work completed before the error was raised.
-/

/-- A benchmark query: the ambiguous seed image `img_id`, the ground-truth
`relevant` set, and the optional `ignore` set (absent field ↦ `none`). -/
structure Query where
  img_id : ℕ
  relevant : Finset ℕ
  ignore : Option (Finset ℕ)
deriving DecidableEq

/-- The precision a cluster receives in `select_clusters_by_precision`
(line 24 of the source): `sum(1 for id in c if id in query['relevant'])
/ float(len(c))`.  Total version; only used on non-empty clusters. -/
def precision (q : Query) (c : List ℕ) : ℚ :=
  ((c.countP fun id => decide (id ∈ q.relevant)) : ℚ) / (c.length : ℚ)

/-- Line 24 as executed: on an empty cluster the division raises
`ZeroDivisionError`, modelled as `none`. -/
def clusterPrecision (q : Query) (c : List ℕ) : Option ℚ :=
  if c.length = 0 then none else some (precision q c)

/-- `precision` of the cluster at index `i` (with `[]` as junk value out of
range); used only to state theorems. -/
def precAt (q : Query) (clusters : List (List ℕ)) (i : ℕ) : ℚ :=
  precision q (clusters.getD i [])

/-- `enumerate(clusters)` starting at index `n`. -/
def enumIdx (n : ℕ) : List α → List (ℕ × α)
  | [] => []
  | a :: l => (n, a) :: enumIdx (n + 1) l

/-- The loop of `select_clusters_by_precision` (lines 23-26): walk the
clusters in order, compute each precision (raising on an empty cluster),
and retain `(index, precision)` for precisions ≥ `minp`. -/
def buildSelection (q : Query) (minp : ℚ) : ℕ → List (List ℕ) → Option (List (ℕ × ℚ))
  | _, [] => some []
  | i, c :: cs =>
    match clusterPrecision q c with
    | none => none
    | some p =>
      match buildSelection q minp (i + 1) cs with
      | none => none
      | some rest => some (if minp ≤ p then (i, p) :: rest else rest)

/-- One step of a stable insertion sort by precision descending: `x` is
placed before the first element whose precision is ≤ `x`'s.  Paired with
`sortDesc` this is exactly Python's stable
`sorted(keys, key = lambda i: selection[i], reverse = True)`. -/
def insertDesc (x : ℕ × ℚ) : List (ℕ × ℚ) → List (ℕ × ℚ)
  | [] => [x]
  | y :: ys => if y.2 ≤ x.2 then x :: y :: ys else y :: insertDesc x ys

/-- Stable sort by precision descending (ties keep list order). -/
def sortDesc : List (ℕ × ℚ) → List (ℕ × ℚ)
  | [] => []
  | x :: xs => insertDesc x (sortDesc xs)

/-- `select_clusters_by_precision` (source lines 20-27).  Returns `none`
when some cluster is empty (the `ZeroDivisionError` on line 24),
otherwise the retained indices sorted by precision descending, ties
broken by original (ascending) index order. -/
def select_clusters_by_precision (q : Query) (clusters : List (List ℕ))
    (min_precision : ℚ := 1/2) : Option (List ℕ) :=
  (buildSelection q min_precision 0 clusters).map fun sel => (sortDesc sel).map Prod.fst

/-- `select_best_cluster` (source lines 30-32):
`select_clusters_by_precision(query, clusters, 0.0)[:1]`. -/
def select_best_cluster (q : Query) (clusters : List (List ℕ)) : Option (List ℕ) :=
  (select_clusters_by_precision q clusters 0).map (List.take 1)

/-- The order in which the sorted selection must come out: strictly larger
precision first, ties by smaller original index first. -/
def SelOrder (a b : ℕ × ℚ) : Prop :=
  b.2 < a.2 ∨ (a.2 = b.2 ∧ a.1 < b.1)

/- ### Example inputs used by the witnesses -/

/-- A sample query (`img_id = 0`, eight relevant IDs, no `ignore` field). -/
def exQ : Query := ⟨0, {1, 2, 3, 4, 5, 6, 7, 8}, none⟩

/-- Two clusters of five IDs each, four relevant apiece: both have
precision 4/5 = 0.8 (the tie scenario of the spec). -/
def exClusters : List (List ℕ) := [[1, 2, 3, 4, 20], [5, 6, 7, 8, 21]]

/- ### C5: the oracle's precision formula (multiset count vs. set cardinality) -/

/-- The precision formula as the spec words it for C5: the *cardinality of
the set* of IDs of `c` that lie in `query.relevant`, divided by `|c|`.
This is the refinement target the code is compared against; the code
itself counts list entries with multiplicity (see `precision`). -/
def precisionSetFormula (q : Query) (c : List ℕ) : ℚ :=
  ((c.toFinset.filter fun id => id ∈ q.relevant).card : ℚ) / (c.length : ℚ)

/-- A query whose only relevant ID is 5. -/
def exQdup : Query := ⟨0, {5}, none⟩

/- ### The preview-truncated selector (source lines 104-105) -/

/-- Python's slice `c[:n]` for an `int` `n` (argparse gives
`--num_preview` type `int`): the first `n` entries when `n ≥ 0`, and all
but the last `|n|` entries when `n < 0`. -/
def pyTake (n : ℤ) (c : List ℕ) : List ℕ :=
  c.take (if 0 ≤ n then n else (c.length : ℤ) + n).toNat

/-- Line 104: `select_clusters_by_precision if args.multiple else
select_best_cluster`; in the multi-select branch the threshold keeps its
default 0.5. -/
def select_clusters_func (multiple : Bool) :
    Query → List (List ℕ) → Option (List ℕ) :=
  if multiple then (fun q cs => select_clusters_by_precision q cs)
  else select_best_cluster

/-- Line 105: the selector closure handed to every method — the chosen
policy applied to the clusters truncated with `c[:args.num_preview]`. -/
def select_clusters (multiple : Bool) (num_preview : ℤ)
    (q : Query) (clusters : List (List ℕ)) : Option (List ℕ) :=
  select_clusters_func multiple q (clusters.map (pyTake num_preview))

/- ### The round loop (source lines 38-43, 106-110) -/

/-- The keys of the `METHODS` registry (lines 38-43), in registration
order. -/
def METHODS_keys : List String := ["Baseline", "CLUE", "Hard-Select", "AID"]

/-- The inner method loop of one round (lines 107-128), with each
method's actual work abstracted to a `(round, method)` trace entry:
`METHODS[method]` on line 110 raises `KeyError` at the first name not in
the registry, which aborts the loop.  Returns the invocations that
executed and the offending name, if any. -/
def sweepMethods (r : ℕ) : List String → List (ℕ × String) × Option String
  | [] => ([], none)
  | m :: ms =>
    if m ∈ METHODS_keys then
      ((r, m) :: (sweepMethods r ms).1, (sweepMethods r ms).2)
    else ([], some m)

/-- The round loop (line 106) from round index `r`, for `k` more rounds. -/
def runRoundsFrom (ms : List String) : ℕ → ℕ → List (ℕ × String) × Option String
  | _, 0 => ([], none)
  | r, k + 1 =>
    match (sweepMethods r ms).2 with
    | some err => ((sweepMethods r ms).1, some err)
    | none =>
      ((sweepMethods r ms).1 ++ (runRoundsFrom ms (r + 1) k).1,
        (runRoundsFrom ms (r + 1) k).2)

/-- The whole benchmark loop: `rounds` rounds over the requested method
names, starting at round 0. -/
def runAllRounds (ms : List String) (rounds : ℕ) : List (ℕ × String) × Option String :=
  runRoundsFrom ms 0 rounds

/- ### C6: the selector handed to the methods -/

/-- The type of the selector callback injected into every method. -/
abbrev Selector := Query → List (List ℕ) → Option (List ℕ)

/-- The inner method loop again (lines 107-128), now also recording which
selector value is passed to `METHODS[method]` on line 110 at each
invocation. -/
def sweepMethodsSel (sel : Selector) (r : ℕ) :
    List String → List (ℕ × String × Selector) × Option String
  | [] => ([], none)
  | m :: ms =>
    if m ∈ METHODS_keys then
      ((r, m, sel) :: (sweepMethodsSel sel r ms).1, (sweepMethodsSel sel r ms).2)
    else ([], some m)

/-- The round loop with selector recording, from round `r` for `k` more
rounds. -/
def runRoundsFromSel (sel : Selector) (ms : List String) :
    ℕ → ℕ → List (ℕ × String × Selector) × Option String
  | _, 0 => ([], none)
  | r, k + 1 =>
    match (sweepMethodsSel sel r ms).2 with
    | some err => ((sweepMethodsSel sel r ms).1, some err)
    | none =>
      ((sweepMethodsSel sel r ms).1 ++ (runRoundsFromSel sel ms (r + 1) k).1,
        (runRoundsFromSel sel ms (r + 1) k).2)

/-- Lines 104-106: the selector closure is built ONCE from `args.multiple`
and `args.num_preview`, before the round loop starts, and that same
closure is what every `METHODS[method]` call receives. -/
def harnessRun (multiple : Bool) (num_preview : ℤ) (ms : List String)
    (rounds : ℕ) : List (ℕ × String × Selector) × Option String :=
  runRoundsFromSel (select_clusters multiple num_preview) ms 0 rounds

/- ### The per-round scoring stage (source lines 112-128) -/

/-- The argument tuple built for each `eval_metrics.precision_at_k` call
(line 117): `(range(1, 101), relevant, ret, exclude-set)`. -/
structure ScoreArgs where
  ks : List ℕ
  relevant : Finset ℕ
  retrieved : List ℕ
  exclude : Finset ℕ
deriving DecidableEq

/-- The per-query record built for `eval_metrics.avg_query_metrics`
(lines 122-126). -/
structure MetricsArgs where
  relevant : Finset ℕ
  retrieved : List ℕ
  ignore : Finset ℕ
deriving DecidableEq

/-- Line 117: one `precision_at_k` argument tuple per query.  `qids` is
the common key set of `queries` and `retrieved` (the methods return one
ranking per query), `queries` the query mapping, `rr` the retrieved
ranking per query ID.  The exclude set is the transliteration of
`set([queries[qid]['img_id']]) | (queries[qid]['ignore'] if 'ignore' in
queries[qid] else set())`, re-evaluated for each `qid`. -/
def precisionCallArgs (qids : List ℕ) (queries : ℕ → Query)
    (rr : ℕ → List ℕ) : List (ℕ × ScoreArgs) :=
  qids.map fun qid =>
    (qid,
      { ks := List.range' 1 100
        relevant := (queries qid).relevant
        retrieved := rr qid
        exclude := {(queries qid).img_id} ∪
          (match (queries qid).ignore with | some ig => ig | none => ∅) })

/-- Lines 122-126: one record per query for `avg_query_metrics`, with the
`ignore` field the transliteration of `set([query['img_id']]) |
(query['ignore'] if 'ignore' in query else set())`. -/
def metricsCallArgs (qids : List ℕ) (queries : ℕ → Query)
    (rr : ℕ → List ℕ) : List (ℕ × MetricsArgs) :=
  qids.map fun qid =>
    (qid,
      { relevant := (queries qid).relevant
        retrieved := rr qid
        ignore := {(queries qid).img_id} ∪
          (match (queries qid).ignore with | some ig => ig | none => ∅) })

/- ### C8: the mean precision curve and the P@k injection -/

/-- `np.mean(list_of_curves, axis = 0)` (line 115-118): the element-wise
arithmetic mean of the per-query precision curves. -/
def elementwiseMean (curves : List (List ℚ)) : List ℚ :=
  match curves with
  | [] => []
  | c :: _ => (List.range c.length).map fun j =>
      (curves.map fun cu => cu.getD j 0).sum / (curves.length : ℚ)

/-- The round's mean precision curve for one method, parameterized by the
external scorer `eval_metrics.precision_at_k` (signature
`pak ks relevant retrieved ignore`), exactly as invoked on line 117 and
averaged on line 115. -/
def roundMeanCurve (pak : List ℕ → Finset ℕ → List ℕ → Finset ℕ → List ℚ)
    (qids : List ℕ) (queries : ℕ → Query) (rr : ℕ → List ℕ) : List ℚ :=
  elementwiseMean ((precisionCallArgs qids queries rr).map fun p =>
    pak p.2.ks p.2.relevant p.2.retrieved p.2.exclude)

/-- Lines 127-128: the round's Metric Bundle after injecting
`P@1, P@10, P@50, P@100`, read off the mean curve at `prec[pk - 1]`.
`base` is the bundle returned by `avg_query_metrics` (line 122). -/
def injectPk (base : List (String × ℚ)) (curve : List ℚ) : List (String × ℚ) :=
  base ++ ([1, 10, 50, 100].map fun pk =>
    (String.append "P@" (toString pk), curve.getD (pk - 1) 0))

/-- A concrete stand-in scorer for the C8 witness: one value per `k`. -/
def exPak : List ℕ → Finset ℕ → List ℕ → Finset ℕ → List ℚ :=
  fun ks _ _ _ => ks.map fun (k : ℕ) => 1 / (k : ℚ)

/- ### C9: the multi-round statistical reducer (lines 130-134) -/

/-- `np.mean` of a 1-D list. -/
def npMean (xs : List ℚ) : ℚ := xs.sum / (xs.length : ℚ)

/-- The squared `np.std` of a 1-D list with the numpy default `ddof = 0`:
the POPULATION variance `mean((x - mean(x))^2)`.  `np.std` itself is
`Real.sqrt` of this value (kept separate so the model stays
executable). -/
def npVariance (xs : List ℚ) : ℚ := npMean (xs.map fun x => (x - npMean xs) ^ 2)

/-- Line 130: the summary table entry for one method and one metric —
`np.mean([m[metric] for m in lists])` across the per-round bundles. -/
def summaryMean (lists : List (List (String × ℚ))) (metric : String) : ℚ :=
  npMean (lists.map fun m => (m.lookup metric).getD 0)

/-- Line 134: the squared standard-deviation table entry —
`np.std([m[metric] for m in lists])` is the square root of this. -/
def summaryVariance (lists : List (List (String × ℚ))) (metric : String) : ℚ :=
  npVariance (lists.map fun m => (m.lookup metric).getD 0)

/-- The spec's 3-round scenario: per-round bundles whose `P@10` values
are 0.2, 0.4, 0.6. -/
def exRounds : List (List (String × ℚ)) :=
  [[("P@10", 1/5)], [("P@10", 2/5)], [("P@10", 3/5)]]

/- ### Lemmas about `enumIdx` -/

theorem mem_enumIdx {l : List α} {n : ℕ} {x : ℕ × α} :
    x ∈ enumIdx n l ↔ ∃ j, x.1 = n + j ∧ l.get? j = some x.2 := by
  induction l generalizing n with
  | nil => simp [enumIdx]
  | cons a l ih =>
    simp only [enumIdx, List.mem_cons, ih]
    constructor
    · rintro (rfl | ⟨j, hj, hg⟩)
      · exact ⟨0, by simp⟩
      · exact ⟨j + 1, by omega, by simpa using hg⟩
    · rintro ⟨j, hx, hg⟩
      cases j with
      | zero =>
        left
        obtain ⟨x1, x2⟩ := x
        simp only [List.get?] at hg
        simp_all
      | succ j =>
        right
        exact ⟨j, by omega, by simpa using hg⟩

theorem enumIdx_pairwise_fst (n : ℕ) (l : List α) :
    (enumIdx n l).Pairwise fun a b => a.1 < b.1 := by
  induction l generalizing n with
  | nil => exact List.Pairwise.nil
  | cons a l ih =>
    refine List.pairwise_cons.mpr ⟨?_, ih (n + 1)⟩
    intro b hb
    obtain ⟨j, hj, -⟩ := mem_enumIdx.mp hb
    omega

theorem enumIdx_map (f : α → β) (n : ℕ) (l : List α) :
    enumIdx n (l.map f) = (enumIdx n l).map fun p => (p.1, f p.2) := by
  induction l generalizing n with
  | nil => rfl
  | cons a l ih => simp [enumIdx, ih]

/- ### Lemmas about the stable sort -/

theorem insertDesc_perm (x : ℕ × ℚ) (l : List (ℕ × ℚ)) :
    List.Perm (insertDesc x l) (x :: l) := by
  induction l with
  | nil => exact List.Perm.refl _
  | cons y ys ih =>
    by_cases h : y.2 ≤ x.2
    · simp [insertDesc, h]
    · simp only [insertDesc, if_neg h]
      exact (ih.cons y).trans (List.Perm.swap x y ys)

theorem sortDesc_perm (l : List (ℕ × ℚ)) : List.Perm (sortDesc l) l := by
  induction l with
  | nil => exact List.Perm.refl _
  | cons x xs ih => exact (insertDesc_perm x (sortDesc xs)).trans (ih.cons x)

theorem SelOrder.snd_le {a b : ℕ × ℚ} (h : SelOrder a b) : b.2 ≤ a.2 := by
  rcases h with h | ⟨h, -⟩
  · exact h.le
  · exact h.ge

theorem insertDesc_pairwise {x : ℕ × ℚ} {l : List (ℕ × ℚ)}
    (hl : l.Pairwise SelOrder)
    (h1 : ∀ y ∈ l, y.2 ≤ x.2 → SelOrder x y)
    (h2 : ∀ y ∈ l, x.2 < y.2 → SelOrder y x) :
    (insertDesc x l).Pairwise SelOrder := by
  induction l with
  | nil => simp [insertDesc]
  | cons y ys ih =>
    obtain ⟨hy, hys⟩ := List.pairwise_cons.mp hl
    by_cases h : y.2 ≤ x.2
    · simp only [insertDesc, if_pos h]
      refine List.pairwise_cons.mpr ⟨?_, hl⟩
      intro b hb
      rcases List.mem_cons.mp hb with rfl | hb
      · exact h1 _ (List.mem_cons_self _ _) h
      · exact h1 _ (List.mem_cons_of_mem _ hb) ((hy b hb).snd_le.trans h)
    · simp only [insertDesc, if_neg h]
      refine List.pairwise_cons.mpr ⟨?_, ?_⟩
      · intro b hb
        rcases List.mem_cons.mp ((insertDesc_perm x ys).mem_iff.mp hb) with rfl | hb
        · exact h2 _ (List.mem_cons_self _ _) (lt_of_not_le h)
        · exact hy b hb
      · exact ih hys (fun z hz => h1 z (List.mem_cons_of_mem _ hz))
          (fun z hz => h2 z (List.mem_cons_of_mem _ hz))

theorem sortDesc_pairwise {l : List (ℕ × ℚ)}
    (hl : l.Pairwise fun a b => a.1 < b.1) :
    (sortDesc l).Pairwise SelOrder := by
  induction l with
  | nil => exact List.Pairwise.nil
  | cons x xs ih =>
    obtain ⟨hx, hxs⟩ := List.pairwise_cons.mp hl
    refine insertDesc_pairwise (ih hxs) ?_ ?_
    · intro y hy hle
      have hmem := (sortDesc_perm xs).mem_iff.mp hy
      rcases lt_or_eq_of_le hle with h | h
      · exact Or.inl h
      · exact Or.inr ⟨h.symm, hx y hmem⟩
    · intro y hy hlt
      exact Or.inl hlt

/- ### Characterization of `buildSelection` -/

theorem buildSelection_none {q : Query} {minp : ℚ} {clusters : List (List ℕ)}
    (h : [] ∈ clusters) (n : ℕ) :
    buildSelection q minp n clusters = none := by
  induction clusters generalizing n with
  | nil => cases h
  | cons c cs ih =>
    rcases List.mem_cons.mp h with rfl | h
    · simp [buildSelection, clusterPrecision]
    · simp only [buildSelection]
      cases hc : clusterPrecision q c with
      | none => rfl
      | some p => rw [ih h (n + 1)]

theorem buildSelection_some {q : Query} {minp : ℚ} {clusters : List (List ℕ)}
    (hne : ∀ c ∈ clusters, c ≠ []) (n : ℕ) :
    buildSelection q minp n clusters =
      some ((enumIdx n (clusters.map (precision q))).filter
        fun ip => decide (minp ≤ ip.2)) := by
  induction clusters generalizing n with
  | nil => rfl
  | cons c cs ih =>
    have hc : clusterPrecision q c = some (precision q c) := by
      have : c ≠ [] := hne c (List.mem_cons_self _ _)
      simp [clusterPrecision, List.length_eq_zero, this]
    have ihc := ih (fun d hd => hne d (List.mem_cons_of_mem _ hd)) (n + 1)
    simp only [buildSelection, hc, ihc, List.map_cons, enumIdx, List.filter_cons]
    by_cases h : minp ≤ precision q c
    · simp [h]
    · simp [h]

theorem get?_map_precision {q : Query} {clusters : List (List ℕ)} {i : ℕ} {p : ℚ} :
    (clusters.map (precision q)).get? i = some p ↔
      (i < clusters.length ∧ precAt q clusters i = p) := by
  rw [List.get?_map]
  constructor
  · intro h
    rcases Option.map_eq_some'.mp h with ⟨c, hc, rfl⟩
    rcases List.get?_eq_some.mp hc with ⟨hlt, hget⟩
    refine ⟨hlt, ?_⟩
    simp only [precAt, List.getD_eq_get?, hc, Option.getD_some, hget]
  · rintro ⟨hlt, rfl⟩
    have hg : clusters.get? i = some (clusters.get ⟨i, hlt⟩) := List.get?_eq_get hlt
    simp only [hg, Option.map_some', precAt, List.getD_eq_get?, Option.getD_some]

/-- Central correctness lemma: on all-non-empty clusters,
`select_clusters_by_precision` succeeds and returns exactly the indices of
precision ≥ `minp`, ordered by precision descending with ties by ascending
index. -/
theorem select_some_spec (q : Query) (minp : ℚ) (clusters : List (List ℕ))
    (hne : ∀ c ∈ clusters, c ≠ []) :
    ∃ l, select_clusters_by_precision q clusters minp = some l ∧
      (∀ i, i ∈ l ↔ (i < clusters.length ∧ minp ≤ precAt q clusters i)) ∧
      l.Pairwise (fun a b => precAt q clusters b < precAt q clusters a ∨
        (precAt q clusters a = precAt q clusters b ∧ a < b)) := by
  set sel := (enumIdx 0 (clusters.map (precision q))).filter
    (fun ip => decide (minp ≤ ip.2)) with hsel
  have hmem_sel : ∀ x : ℕ × ℚ, x ∈ sel ↔
      (x.1 < clusters.length ∧ precAt q clusters x.1 = x.2 ∧ minp ≤ x.2) := by
    intro x
    rw [hsel, List.mem_filter, mem_enumIdx]
    constructor
    · rintro ⟨⟨j, hj, hg⟩, hp⟩
      have hj0 : x.1 = j := by omega
      subst hj0
      rcases get?_map_precision.mp hg with ⟨hlt, hpa⟩
      exact ⟨hlt, hpa, of_decide_eq_true hp⟩
    · rintro ⟨hlt, hpa, hp⟩
      exact ⟨⟨x.1, by omega, get?_map_precision.mpr ⟨hlt, hpa⟩⟩, decide_eq_true hp⟩
  refine ⟨(sortDesc sel).map Prod.fst, ?_, ?_, ?_⟩
  · simp [select_clusters_by_precision, buildSelection_some hne 0, hsel]
  · intro i
    rw [List.mem_map]
    constructor
    · rintro ⟨x, hx, rfl⟩
      have hx2 := (hmem_sel x).mp ((sortDesc_perm sel).mem_iff.mp hx)
      refine ⟨hx2.1, ?_⟩
      rw [hx2.2.1]
      exact hx2.2.2
    · rintro ⟨hlt, hp⟩
      refine ⟨(i, precAt q clusters i), ?_, rfl⟩
      exact (sortDesc_perm sel).mem_iff.mpr ((hmem_sel _).mpr ⟨hlt, rfl, hp⟩)
  · have hpw : (sortDesc sel).Pairwise SelOrder :=
      sortDesc_pairwise ((enumIdx_pairwise_fst 0 _).filter _)
    rw [List.pairwise_map]
    refine hpw.imp_of_mem ?_
    intro a b ha hb hab
    have hA := (hmem_sel a).mp ((sortDesc_perm sel).mem_iff.mp ha)
    have hB := (hmem_sel b).mp ((sortDesc_perm sel).mem_iff.mp hb)
    rcases hab with h | ⟨h1, h2⟩
    · left
      rw [hA.2.1, hB.2.1]
      exact h
    · right
      rw [hA.2.1, hB.2.1, h1]
      exact ⟨rfl, h2⟩

theorem precision_nonneg (q : Query) (c : List ℕ) : 0 ≤ precision q c :=
  div_nonneg (Nat.cast_nonneg _) (Nat.cast_nonneg _)

/- ### Claim theorems: the oracle (C1, C2, C4) -/

/-- C1: on non-empty clusters, Precision-Ranked Multi-Select with threshold
`t` returns exactly the indices whose precision is ≥ `t`, sorted by
precision descending, ties broken by ascending original index. -/
theorem select_clusters_by_precision_spec (q : Query) (t : ℚ)
    (clusters : List (List ℕ)) (hne : ∀ c ∈ clusters, c ≠ []) :
    ∃ l, select_clusters_by_precision q clusters t = some l ∧
      (∀ i, i ∈ l ↔ (i < clusters.length ∧ t ≤ precAt q clusters i)) ∧
      l.Pairwise (fun a b => precAt q clusters b < precAt q clusters a ∨
        (precAt q clusters a = precAt q clusters b ∧ a < b)) :=
  select_some_spec q t clusters hne

/-- Witness for C1, at the spec's tie scenario: two clusters of precision
0.8 with threshold 0.5. -/
theorem select_clusters_by_precision_spec_witness :
    (∀ c ∈ exClusters, c ≠ []) ∧
    (∃ l, select_clusters_by_precision exQ exClusters (1/2) = some l ∧
      (∀ i, i ∈ l ↔ (i < exClusters.length ∧ (1:ℚ)/2 ≤ precAt exQ exClusters i)) ∧
      l.Pairwise (fun a b => precAt exQ exClusters b < precAt exQ exClusters a ∨
        (precAt exQ exClusters a = precAt exQ exClusters b ∧ a < b))) :=
  ⟨by decide, select_clusters_by_precision_spec exQ (1/2) exClusters (by decide)⟩

/-- C2: on non-empty clusters, Best-Single-Select returns at most one
index; the empty sequence exactly when `clusters` is empty, and otherwise
the first index attaining the maximum precision. -/
theorem select_best_cluster_spec (q : Query) (clusters : List (List ℕ))
    (hne : ∀ c ∈ clusters, c ≠ []) :
    ∃ l, select_best_cluster q clusters = some l ∧ l.length ≤ 1 ∧
      (l = [] ↔ clusters = []) ∧
      (clusters ≠ [] → ∃ i, i < clusters.length ∧ l = [i] ∧
        (∀ j, j < clusters.length → precAt q clusters j ≤ precAt q clusters i) ∧
        (∀ j, j < i → precAt q clusters j < precAt q clusters i)) := by
  obtain ⟨l0, hsel, hmem, hpw⟩ := select_some_spec q 0 clusters hne
  have hmem0 : ∀ i, i ∈ l0 ↔ i < clusters.length := by
    intro i
    rw [hmem i]
    exact ⟨fun h => h.1, fun h => ⟨h, precision_nonneg _ _⟩⟩
  refine ⟨l0.take 1, ?_, ?_, ?_, ?_⟩
  · simp [select_best_cluster, hsel]
  · simp
  · cases hcl : clusters with
    | nil =>
      have : l0 = [] := by
        apply List.eq_nil_iff_forall_not_mem.mpr
        intro i hi
        have := (hmem0 i).mp hi
        rw [hcl] at this
        simp at this
      simp [this]
    | cons c cs =>
      have h0 : 0 ∈ l0 := (hmem0 0).mpr (by rw [hcl]; simp)
      cases l0 with
      | nil => cases h0
      | cons i rest => simp
  · intro hcl
    have h0 : 0 ∈ l0 := (hmem0 0).mpr (List.length_pos.mpr hcl)
    cases hl0 : l0 with
    | nil =>
      rw [hl0] at h0
      cases h0
    | cons i rest =>
      rw [hl0] at hmem0 hpw
      obtain ⟨hi_rel, hrest⟩ := List.pairwise_cons.mp hpw
      have hi_lt : i < clusters.length := (hmem0 i).mp (List.mem_cons_self _ _)
      refine ⟨i, hi_lt, by simp, ?_, ?_⟩
      · intro j hj
        rcases List.mem_cons.mp ((hmem0 j).mpr hj) with rfl | hjr
        · exact le_refl _
        · rcases hi_rel j hjr with h | ⟨h, -⟩
          · exact h.le
          · exact h.ge
      · intro j hj
        have hj_lt : j < clusters.length := hj.trans hi_lt
        rcases List.mem_cons.mp ((hmem0 j).mpr hj_lt) with rfl | hjr
        · omega
        · rcases hi_rel j hjr with h | ⟨-, h⟩
          · exact h
          · omega

/-- Witness for C2: the same two-cluster example; the list is non-empty so
a single best index is returned. -/
theorem select_best_cluster_spec_witness :
    (∀ c ∈ exClusters, c ≠ []) ∧
    (∃ l, select_best_cluster exQ exClusters = some l ∧ l.length ≤ 1 ∧
      (l = [] ↔ exClusters = []) ∧
      (exClusters ≠ [] → ∃ i, i < exClusters.length ∧ l = [i] ∧
        (∀ j, j < exClusters.length → precAt exQ exClusters j ≤ precAt exQ exClusters i) ∧
        (∀ j, j < i → precAt exQ exClusters j < precAt exQ exClusters i))) :=
  ⟨by decide, select_best_cluster_spec exQ exClusters (by decide)⟩

/-- C4: an empty cluster makes the oracle fail loudly (the
`ZeroDivisionError` of line 24, modelled as `none`) under both policies,
for every threshold — it neither scores the cluster 0 nor skips it. -/
theorem empty_cluster_fails_loudly (q : Query) (minp : ℚ)
    (clusters : List (List ℕ)) (h : [] ∈ clusters) :
    select_clusters_by_precision q clusters minp = none ∧
      select_best_cluster q clusters = none := by
  constructor
  · simp [select_clusters_by_precision, buildSelection_none h 0]
  · simp [select_best_cluster, select_clusters_by_precision,
      buildSelection_none h 0]

/-- Witness for C4: a cluster list whose second cluster is empty. -/
theorem empty_cluster_fails_loudly_witness :
    select_clusters_by_precision exQ [[1, 2], []] (1/2) = none ∧
      select_best_cluster exQ [[1, 2], []] = none :=
  empty_cluster_fails_loudly exQ (1/2) [[1, 2], []] (by decide)

/-- Counterexample to C5 as stated: on the duplicate-bearing cluster
`[5, 5]` the code assigns precision 2/2 = 1 (entries counted with
multiplicity), while the set-cardinality formula of the claim gives
1/2. -/
theorem precision_formula_counterexample :
    clusterPrecision exQdup [5, 5] = some 1 ∧
      precisionSetFormula exQdup [5, 5] = 1/2 ∧
      clusterPrecision exQdup [5, 5] ≠ some (precisionSetFormula exQdup [5, 5]) := by
  refine ⟨?_, ?_, ?_⟩ <;>
    norm_num [clusterPrecision, precision, precisionSetFormula, exQdup,
      Finset.filter_singleton, List.countP, List.countP.go]

/-- C5 (amended): the oracle assigns the non-empty cluster `c` the
precision `(number of entries of c lying in query.relevant, counted with
multiplicity) / |c|`; whenever `c` has no duplicate entries this agrees
with the spec's set-cardinality formula. -/
theorem clusterPrecision_formula (q : Query) (c : List ℕ) (hc : c ≠ []) :
    clusterPrecision q c =
      some (((c.countP fun id => decide (id ∈ q.relevant)) : ℚ) / (c.length : ℚ)) ∧
      (c.Nodup → precision q c = precisionSetFormula q c) := by
  constructor
  · simp [clusterPrecision, List.length_eq_zero, hc, precision]
  · intro hnd
    unfold precision precisionSetFormula
    congr 1
    rw [List.countP_eq_length_filter]
    have h1 : (c.filter fun id => decide (id ∈ q.relevant)).toFinset =
        c.toFinset.filter fun id => id ∈ q.relevant := by
      ext a
      simp [List.mem_filter]
    have h2 : (c.filter fun id => decide (id ∈ q.relevant)).toFinset.card =
        (c.filter fun id => decide (id ∈ q.relevant)).length :=
      List.toFinset_card_of_nodup (hnd.filter _)
    rw [← h1, h2]

/-- Witness for the amended C5, on a duplicate-free cluster containing one
relevant and one irrelevant ID. -/
theorem clusterPrecision_formula_witness :
    clusterPrecision exQdup [5, 6] =
      some ((([5, 6].countP fun id => decide (id ∈ exQdup.relevant)) : ℚ) / (([5, 6] : List ℕ).length : ℚ)) ∧
      precision exQdup [5, 6] = precisionSetFormula exQdup [5, 6] :=
  ⟨(clusterPrecision_formula exQdup [5, 6] (by decide)).1,
    (clusterPrecision_formula exQdup [5, 6] (by decide)).2 (by decide)⟩

theorem select_clusters_func_none (multiple : Bool) (q : Query)
    {cs : List (List ℕ)} (h : [] ∈ cs) :
    select_clusters_func multiple q cs = none := by
  cases multiple <;>
    simp [select_clusters_func, select_best_cluster,
      select_clusters_by_precision, buildSelection_none h 0]

theorem select_clusters_func_some (multiple : Bool) (q : Query)
    {cs : List (List ℕ)} (hne : ∀ c ∈ cs, c ≠ []) :
    ∃ l, select_clusters_func multiple q cs = some l := by
  cases multiple with
  | false =>
    obtain ⟨l, hl, -, -⟩ := select_some_spec q 0 cs hne
    exact ⟨l.take 1, by simp [select_clusters_func, select_best_cluster, hl]⟩
  | true =>
    obtain ⟨l, hl, -, -⟩ := select_some_spec q (1/2) cs hne
    exact ⟨l, by simpa [select_clusters_func] using hl⟩

theorem pyTake_zero (c : List ℕ) : pyTake 0 c = [] := by
  simp [pyTake]

theorem pyTake_pos_ne_nil {n : ℤ} (hn : 1 ≤ n) {c : List ℕ} (hc : c ≠ []) :
    pyTake n c ≠ [] := by
  cases c with
  | nil => exact absurd rfl hc
  | cons a c =>
    have h0 : (0 : ℤ) ≤ n := by omega
    have h1 : 1 ≤ n.toNat := by omega
    simp only [pyTake, if_pos h0]
    cases hk : n.toNat with
    | zero => omega
    | succ k => simp [List.take]

/-- C10: with `num_preview = 0` — or any value whose slice empties every
cluster — the injected selector fails with the empty-cluster
division-by-zero on any call whose cluster list is non-empty, even if the
original clusters are all non-empty; with `num_preview ≥ 1`, truncation
preserves non-emptiness and the selector succeeds on all-non-empty
clusters. -/
theorem select_clusters_preview_safety (multiple : Bool) (np : ℤ)
    (q : Query) (clusters : List (List ℕ)) :
    ((np = 0 ∨ ∀ c ∈ clusters, pyTake np c = []) → clusters ≠ [] →
      select_clusters multiple np q clusters = none) ∧
    (1 ≤ np → (∀ c ∈ clusters, c ≠ []) →
      (∀ c ∈ clusters, pyTake np c ≠ []) ∧
      ∃ l, select_clusters multiple np q clusters = some l) := by
  constructor
  · intro hz hcl
    have hnil : [] ∈ clusters.map (pyTake np) := by
      cases clusters with
      | nil => exact absurd rfl hcl
      | cons c cs =>
        rcases hz with rfl | hall
        · exact List.mem_map.mpr ⟨c, List.mem_cons_self _ _, pyTake_zero c⟩
        · exact List.mem_map.mpr
            ⟨c, List.mem_cons_self _ _, hall c (List.mem_cons_self _ _)⟩
    exact select_clusters_func_none multiple q hnil
  · intro hnp hne
    have hpt : ∀ c ∈ clusters, pyTake np c ≠ [] :=
      fun c hc => pyTake_pos_ne_nil hnp (hne c hc)
    refine ⟨hpt, ?_⟩
    have hne2 : ∀ d ∈ clusters.map (pyTake np), d ≠ [] := by
      intro d hd
      rcases List.mem_map.mp hd with ⟨c, hc, rfl⟩
      exact hpt c hc
    exact select_clusters_func_some multiple q hne2

/-- Witness for C10: `num_preview = 0` kills the selector on `[[1]]`,
`num_preview = 1` keeps it alive. -/
theorem select_clusters_preview_safety_witness :
    select_clusters false 0 exQ [[1]] = none ∧
      ∃ l, select_clusters false 1 exQ [[1]] = some l :=
  ⟨(select_clusters_preview_safety false 0 exQ [[1]]).1 (Or.inl rfl) (by decide),
    ((select_clusters_preview_safety false 1 exQ [[1]]).2 (by decide) (by decide)).2⟩

/-- Counterexample to C3 as stated: requesting `["Baseline",
"Frobnicate"]` for 5 rounds is NOT rejected before the round loop — the
`Baseline` method fully executes in round 0 before `METHODS["Frobnicate"]`
raises `KeyError`. -/
theorem unknown_method_counterexample :
    (runAllRounds ["Baseline", "Frobnicate"] 5).2 = some "Frobnicate" ∧
      (runAllRounds ["Baseline", "Frobnicate"] 5).1 = [(0, "Baseline")] ∧
      (runAllRounds ["Baseline", "Frobnicate"] 5).1 ≠ [] := by
  refine ⟨?_, ?_, ?_⟩ <;> decide

/-- C3 (amended): an unknown method name is fatal, but it is only raised
by the `METHODS[method]` lookup when the sweep of round 0 reaches that
name; the methods listed before the first unknown one have already run in
round 0, and nothing of any later round runs. -/
theorem unknown_method_keyerror (ms : List String) (rounds : ℕ)
    (hrounds : 0 < rounds) (hunk : ∃ m ∈ ms, m ∉ METHODS_keys) :
    runAllRounds ms rounds =
      ((ms.takeWhile fun m => decide (m ∈ METHODS_keys)).map fun m => ((0 : ℕ), m),
        (ms.dropWhile fun m => decide (m ∈ METHODS_keys)).head?) ∧
      (runAllRounds ms rounds).2.isSome := by
  have hsweep : ∀ r : ℕ,
      sweepMethods r ms =
        ((ms.takeWhile fun m => decide (m ∈ METHODS_keys)).map fun m => (r, m),
          (ms.dropWhile fun m => decide (m ∈ METHODS_keys)).head?) := by
    intro r
    clear hrounds
    induction ms with
    | nil => simp at hunk
    | cons m ms ih =>
      by_cases hm : m ∈ METHODS_keys
      · have hms : ∃ x ∈ ms, x ∉ METHODS_keys := by
          rcases hunk with ⟨x, hx, hxk⟩
          rcases List.mem_cons.mp hx with rfl | hx
          · exact absurd hm hxk
          · exact ⟨x, hx, hxk⟩
        simp only [sweepMethods, if_pos hm, ih hms,
          List.takeWhile_cons, List.dropWhile_cons, decide_eq_true hm]
        simp
      · simp only [sweepMethods, if_neg hm,
          List.takeWhile_cons, List.dropWhile_cons]
        rw [decide_eq_false hm]
        simp
  have hdrop : (ms.dropWhile fun m => decide (m ∈ METHODS_keys)) ≠ [] := by
    intro hnil
    rcases hunk with ⟨x, hx, hxk⟩
    exact hxk (of_decide_eq_true (List.dropWhile_eq_nil_iff.mp hnil x hx))
  obtain ⟨err, rest, herr⟩ : ∃ e l,
      (ms.dropWhile fun m => decide (m ∈ METHODS_keys)) = e :: l := by
    cases h : (ms.dropWhile fun m => decide (m ∈ METHODS_keys)) with
    | nil => exact absurd h hdrop
    | cons e l => exact ⟨e, l, rfl⟩
  cases rounds with
  | zero => omega
  | succ k =>
    have h2 : (sweepMethods 0 ms).2 = some err := by
      rw [hsweep 0, herr]
      rfl
    constructor
    · unfold runAllRounds runRoundsFrom
      rw [h2]
      simp only [hsweep 0, herr]
      rfl
    · unfold runAllRounds runRoundsFrom
      rw [h2]
      simp

/-- Witness for the amended C3: one known method, then an unknown one. -/
theorem unknown_method_keyerror_witness :
    runAllRounds ["CLUE", "Nope", "AID"] 3 =
      (((["CLUE", "Nope", "AID"] : List String).takeWhile fun m =>
          decide (m ∈ METHODS_keys)).map fun m => ((0 : ℕ), m),
        ((["CLUE", "Nope", "AID"] : List String).dropWhile fun m =>
          decide (m ∈ METHODS_keys)).head?) ∧
      (runAllRounds ["CLUE", "Nope", "AID"] 3).2.isSome :=
  unknown_method_keyerror ["CLUE", "Nope", "AID"] 3 (by decide) (by decide)

theorem sweepMethodsSel_sel {sel : Selector} {r : ℕ} {ms : List String} :
    ∀ e ∈ (sweepMethodsSel sel r ms).1, e.2.2 = sel := by
  induction ms with
  | nil => simp [sweepMethodsSel]
  | cons m ms ih =>
    intro e he
    by_cases hm : m ∈ METHODS_keys
    · simp only [sweepMethodsSel, if_pos hm] at he
      rcases List.mem_cons.mp he with rfl | he
      · rfl
      · exact ih e he
    · simp [sweepMethodsSel, if_neg hm] at he

theorem runRoundsFromSel_sel {sel : Selector} {ms : List String} :
    ∀ (k r : ℕ), ∀ e ∈ (runRoundsFromSel sel ms r k).1, e.2.2 = sel := by
  intro k
  induction k with
  | zero => simp [runRoundsFromSel]
  | succ k ih =>
    intro r e he
    cases h : (sweepMethodsSel sel r ms).2 with
    | some err =>
      simp only [runRoundsFromSel, h] at he
      exact sweepMethodsSel_sel e he
    | none =>
      simp only [runRoundsFromSel, h, List.mem_append] at he
      rcases he with he | he
      · exact sweepMethodsSel_sel e he
      · exact ih (r + 1) e he

/-- C6: the selector injected into the methods applies the configured
policy to the preview-truncated view of the clusters (each cluster cut to
its first `num_preview` entries), and every method invocation of every
round of one run receives that one selector, built once from the single
`args.num_preview` value. -/
theorem selector_preview_uniform (multiple : Bool) (np : ℤ) (hnp : 0 ≤ np)
    (ms : List String) (rounds : ℕ) :
    (select_clusters multiple np = fun q clusters =>
      select_clusters_func multiple q (clusters.map fun c => c.take np.toNat)) ∧
    ∀ e ∈ (harnessRun multiple np ms rounds).1, e.2.2 = select_clusters multiple np := by
  constructor
  · funext q clusters
    unfold select_clusters
    congr 1
    apply List.map_congr_left
    intro c _
    simp [pyTake, if_pos hnp]
  · exact fun e he => runRoundsFromSel_sel rounds 0 e he

/-- Witness for C6 at `num_preview = 10`, one method, two rounds. -/
theorem selector_preview_uniform_witness :
    (select_clusters false 10 = fun q clusters =>
      select_clusters_func false q (clusters.map fun c => c.take (10 : ℤ).toNat)) ∧
    ∀ e ∈ (harnessRun false 10 ["Baseline"] 2).1, e.2.2 = select_clusters false 10 :=
  selector_preview_uniform false 10 (by decide) ["Baseline"] 2

/-- C7: per query, the exclude set of the precision-curve call equals
`{img_id} ∪ ignore` (ignore taken as `∅` when the field is absent),
rebuilt from that query alone, and the aggregate-metric call for the same
query receives exactly the same set. -/
theorem exclude_sets_consistent (qids : List ℕ) (queries : ℕ → Query)
    (rr : ℕ → List ℕ) :
    ((precisionCallArgs qids queries rr).map fun p => (p.1, p.2.exclude)) =
      (qids.map fun qid =>
        (qid, {(queries qid).img_id} ∪ (queries qid).ignore.getD ∅)) ∧
    ((metricsCallArgs qids queries rr).map fun p => (p.1, p.2.ignore)) =
      ((precisionCallArgs qids queries rr).map fun p => (p.1, p.2.exclude)) := by
  constructor
  · unfold precisionCallArgs
    rw [List.map_map]
    apply List.map_congr_left
    intro qid _
    cases h : (queries qid).ignore <;> simp [h, Option.getD]
  · unfold precisionCallArgs metricsCallArgs
    rw [List.map_map, List.map_map]
    exact List.map_congr_left fun qid _ => rfl

theorem lookup_append_right {k : String} {base new : List (String × ℚ)}
    (h : k ∉ base.map Prod.fst) :
    (base ++ new).lookup k = new.lookup k := by
  induction base with
  | nil => rfl
  | cons e es ih =>
    simp only [List.map_cons, List.mem_cons] at h
    push_neg at h
    have hk : (k == e.1) = false := beq_eq_false_iff_ne.mpr h.1
    cases e
    simp only [List.cons_append, List.lookup, hk]
    exact ih h.2

/-- C8: every `precision_at_k` invocation of the round receives
`ks = range(1, 101)`, i.e. the integer range 1..100, and the Metric
Bundle entries `P@1, P@10, P@50, P@100` injected on lines 127-128 are the
round's mean precision curve read at `prec[pk - 1]` — the 1-indexed
positions 1, 10, 50 and 100. -/
theorem pk_injection (pak : List ℕ → Finset ℕ → List ℕ → Finset ℕ → List ℚ)
    (qids : List ℕ) (queries : ℕ → Query) (rr : ℕ → List ℕ)
    (base : List (String × ℚ))
    (hbase : ∀ pk ∈ ([1, 10, 50, 100] : List ℕ),
      String.append "P@" (toString pk) ∉ base.map Prod.fst)
    (hlen : ∀ ks rel ret ex, (pak ks rel ret ex).length = ks.length)
    (hq : qids ≠ []) :
    (∀ p ∈ precisionCallArgs qids queries rr, p.2.ks = List.range' 1 100) ∧
    (roundMeanCurve pak qids queries rr).length = 100 ∧
    ∀ pk ∈ ([1, 10, 50, 100] : List ℕ),
      (injectPk base (roundMeanCurve pak qids queries rr)).lookup
          (String.append "P@" (toString pk)) =
        some ((roundMeanCurve pak qids queries rr).getD (pk - 1) 0) := by
  refine ⟨?_, ?_, ?_⟩
  · intro p hp
    rcases List.mem_map.mp hp with ⟨qid, -, rfl⟩
    rfl
  · cases qids with
    | nil => exact absurd rfl hq
    | cons q qs =>
      simp only [roundMeanCurve, precisionCallArgs, elementwiseMean,
        List.map_cons, List.length_map, List.length_range, hlen]
      rfl
  · intro pk hpk
    rw [injectPk, lookup_append_right (hbase pk hpk)]
    fin_cases hpk <;> rfl

/-- Witness for C8: one query, empty base bundle, concrete scorer that
returns one value per requested `k`. -/
theorem pk_injection_witness :
    (∀ p ∈ precisionCallArgs [7] (fun _ => exQ) (fun _ => [1, 2, 3]),
      p.2.ks = List.range' 1 100) ∧
    (roundMeanCurve exPak [7] (fun _ => exQ) (fun _ => [1, 2, 3])).length = 100 ∧
    ∀ pk ∈ ([1, 10, 50, 100] : List ℕ),
      (injectPk [] (roundMeanCurve exPak [7] (fun _ => exQ) (fun _ => [1, 2, 3]))).lookup
          (String.append "P@" (toString pk)) =
        some ((roundMeanCurve exPak [7] (fun _ => exQ) (fun _ => [1, 2, 3])).getD (pk - 1) 0) :=
  pk_injection exPak [7] (fun _ => exQ) (fun _ => [1, 2, 3]) [] (by simp)
    (fun ks rel ret ex => List.length_map ks fun (k : ℕ) => 1 / (k : ℚ)) (by decide)

/-- C9: per method and metric the reducer reports the arithmetic mean of
the per-round values, and the standard-deviation table reports the
population standard deviation `sqrt(mean((x - mean)^2))`; on `P@10`
values `[0.2, 0.4, 0.6]` this yields mean `0.4` and std
`sqrt(((0.2-0.4)^2 + (0.4-0.4)^2 + (0.6-0.4)^2)/3)`. -/
theorem statistical_reducer_spec :
    (∀ (lists : List (List (String × ℚ))) (metric : String),
      summaryMean lists metric =
        (lists.map fun m => (m.lookup metric).getD 0).sum /
          (((lists.map fun m => (m.lookup metric).getD 0).length : ℚ)) ∧
      summaryVariance lists metric =
        npMean ((lists.map fun m => (m.lookup metric).getD 0).map
          fun x => (x - npMean (lists.map fun m => (m.lookup metric).getD 0)) ^ 2)) ∧
    summaryMean exRounds "P@10" = 2/5 ∧
    Real.sqrt ((summaryVariance exRounds "P@10" : ℝ)) =
      Real.sqrt ((((1 : ℝ)/5 - 2/5) ^ 2 + ((2 : ℝ)/5 - 2/5) ^ 2 +
        ((3 : ℝ)/5 - 2/5) ^ 2) / 3) := by
  refine ⟨fun lists metric => ⟨rfl, rfl⟩, ?_, ?_⟩
  · norm_num [summaryMean, npMean, exRounds, List.lookup]
  · rw [show ((((1 : ℝ)/5 - 2/5) ^ 2 + ((2 : ℝ)/5 - 2/5) ^ 2 +
        ((3 : ℝ)/5 - 2/5) ^ 2) / 3) = ((2 : ℝ)/75) by norm_num]
    rw [show summaryVariance exRounds "P@10" = (2/75 : ℚ) by
      norm_num [summaryVariance, npVariance, npMean, exRounds, List.lookup]]
    norm_num
